import Mathlib

/-! Shallow embedding of `torchdata/datapipes/iter/util/incshuffle.py`:
the incremental shuffler `IncrementalShufflerIterDataPipe` and its helper
`_pick`.  The upstream data pipe is modelled as the list of samples it
yields; the random generator `rng` is modelled as a stream `g : Nat → Nat`
of raw draws together with a draw counter `t`: the call
`rng.randint(0, n - 1)` made at draw counter `t` returns `g t % n`, which
ranges over exactly the inclusive interval `[0, n - 1]` demanded of a
conforming generator (and every conforming sequence of in-range draws is
realised by some `g`).  `randint` on an empty range raises `ValueError`,
modelled by `none`. -/

/-- Result of `rng.randint(0, n - 1)` at draw counter `t`:
`ValueError` (= `none`) when the range `[0, n - 1]` is empty, otherwise an
index in `[0, n - 1]` chosen by the generator stream. -/
def randint0 (g : Nat → Nat) (t n : Nat) : Option Nat :=
  if n = 0 then none else some (g t % n)

/-- Events observed during one traversal of the shuffler. -/
inductive Ev (α : Type) where
  /-- a sample was pulled from upstream and appended to the buffer -/
  | pull : α → Ev α
  /-- a sample was emitted by the `yield` inside the main `for` loop -/
  | emitM : α → Ev α
  /-- a sample was emitted by the `yield` of the final drain `while` loop -/
  | emitD : α → Ev α
  deriving DecidableEq

/-- Embedding of `_pick(buf, rng)`:
`k = rng.randint(0, len(buf) - 1)`; `sample = buf[k]`; `buf[k] = buf[-1]`;
`buf.pop()`; `return sample`.  The result pairs the returned sample with
the buffer after the mutation; `none` models the `ValueError` raised by
`randint` on an empty buffer, or an `IndexError` from an out-of-range
index (the latter cannot happen for an in-range draw). -/
def _pick {α : Type} (buf : List α) (g : Nat → Nat) (t : Nat) :
    Option (α × List α) :=
  match randint0 g t buf.length with
  | none => none
  | some k =>
    if h : k < buf.length then
      some (buf.get ⟨k, h⟩,
        (buf.set k
          (buf.getLast
            (List.length_pos.mp (Nat.lt_of_le_of_lt (Nat.zero_le k) h)))).dropLast)
    else none

/-- Embedding of the final `while len(buf) > 0: yield _pick(buf, self.rng)`
drain loop.  Each observation pairs the event with the buffer contents
right after the pick.  `fuel` is a structural bound on the number of loop
iterations; the traversal supplies `fuel = buf.length`, and since every
pick removes exactly one element the `none` returned on fuel exhaustion is
never reached. -/
def drainLoop {α : Type} (g : Nat → Nat) :
    Nat → List α → Nat → Option (List (Ev α × List α))
  | _, [], _ => some []
  | 0, _ :: _, _ => none
  | fuel + 1, b :: bs, t =>
    match _pick (b :: bs) g t with
    | none => none
    | some (s, buf2) =>
      (drainLoop g fuel buf2 (t + 1)).map (fun tr => (Ev.emitD s, buf2) :: tr)

/-- Embedding of the `for sample in data:` main loop of
`IncrementalShufflerIterDataPipe.__iter__`, followed by the drain loop.
Here `initial` is the effective fill level already clamped by the caller
(`min(self.initial, self.buffer_size)`); `data` is the part of the
upstream sequence not yet pulled; `buf` is the buffer; `t` is the draw
counter of the generator.  One iteration appends the next sample, tops the
buffer up with one more sample when `len(buf) < buffer_size` (a top-up
attempt on an exhausted upstream absorbs the `StopIteration` and changes
nothing, which is why the one-element case performs no top-up), and then,
when `len(buf) >= initial`, yields `_pick(buf, self.rng)`.  Observations
record each append (`Ev.pull`) and each yield (`Ev.emitM`, `Ev.emitD`)
together with the buffer contents right after it. -/
def mainLoop {α : Type} (buffer_size initial : Int) (g : Nat → Nat) :
    List α → List α → Nat → Option (List (Ev α × List α))
  | [], buf, t => drainLoop g buf.length buf t
  | [x], buf, t =>
    let buf1 := buf ++ [x]
    if initial ≤ (buf1.length : Int) then
      match _pick buf1 g t with
      | none => none
      | some (s, buf2) =>
        (drainLoop g buf2.length buf2 (t + 1)).map
          (fun tr => (Ev.pull x, buf1) :: (Ev.emitM s, buf2) :: tr)
    else
      (drainLoop g buf1.length buf1 t).map (fun tr => (Ev.pull x, buf1) :: tr)
  | x :: y :: rest, buf, t =>
    let buf1 := buf ++ [x]
    if (buf1.length : Int) < buffer_size then
      let buf2 := buf1 ++ [y]
      if initial ≤ (buf2.length : Int) then
        match _pick buf2 g t with
        | none => none
        | some (s, buf3) =>
          (mainLoop buffer_size initial g rest buf3 (t + 1)).map
            (fun tr =>
              (Ev.pull x, buf1) :: (Ev.pull y, buf2) :: (Ev.emitM s, buf3) :: tr)
      else
        (mainLoop buffer_size initial g rest buf2 t).map
          (fun tr => (Ev.pull x, buf1) :: (Ev.pull y, buf2) :: tr)
    else
      if initial ≤ (buf1.length : Int) then
        match _pick buf1 g t with
        | none => none
        | some (s, buf2) =>
          (mainLoop buffer_size initial g (y :: rest) buf2 (t + 1)).map
            (fun tr => (Ev.pull x, buf1) :: (Ev.emitM s, buf2) :: tr)
      else
        (mainLoop buffer_size initial g (y :: rest) buf1 t).map
          (fun tr => (Ev.pull x, buf1) :: tr)

/-- Observations of one full traversal of
`IncrementalShufflerIterDataPipe.__iter__` over the upstream sequence
`input`: effective fill level `min(self.initial, self.buffer_size)`,
initially empty buffer, draw counter 0. -/
def incshuffleTrace {α : Type} (initial buffer_size : Int) (g : Nat → Nat)
    (input : List α) : Option (List (Ev α × List α)) :=
  mainLoop buffer_size (min initial buffer_size) g input [] 0

/-- Extract the emitted samples (both yields), in order, from a trace. -/
def emitted {α : Type} (tr : List (Ev α × List α)) : List α :=
  tr.filterMap (fun o => match o.1 with
    | Ev.pull _ => none
    | Ev.emitM s => some s
    | Ev.emitD s => some s)

/-- The output sequence of one traversal of the shuffler. -/
def incshuffle {α : Type} (initial buffer_size : Int) (g : Nat → Nat)
    (input : List α) : Option (List α) :=
  (incshuffleTrace initial buffer_size g input).map emitted

/-- Test for an emission event (either yield). -/
def isEmit {α : Type} : Ev α → Bool
  | Ev.pull _ => false
  | Ev.emitM _ => true
  | Ev.emitD _ => true

/-- Test for an emission from inside the main `for` loop. -/
def isMainEmit {α : Type} : Ev α → Bool
  | Ev.emitM _ => true
  | _ => false

/-- Number of observations before the first emission of a trace; every
observation before the first emission is a pull, so this counts the
samples pulled from upstream before the first sample is output. -/
def pullsBeforeFirstEmit {α : Type} (tr : List (Ev α × List α)) : Nat :=
  (tr.takeWhile (fun o => ! isEmit o.1)).length

/-- Embedding of `IncrementalShufflerIterDataPipe.__len__`: it returns
`len(self.source_datapipe)` unmodified; an exception raised by the
upstream length computation (modelled with `Except`) propagates unchanged
because the call carries no handler. -/
def incshuffleLen {ε : Type} (source_len : Except ε Nat) : Except ε Nat :=
  source_len

/-- A concrete deterministic generator stream: every raw draw is 0, so
every pick selects index 0. -/
def g0 : Nat → Nat := fun _ => 0

/-! Basic facts about `_pick`. -/

/-- Setting a slot to the value it already holds changes nothing. -/
theorem set_get_self {α : Type} (l : List α) (k : Nat) (h : k < l.length) :
    l.set k (l.get ⟨k, h⟩) = l := by
  induction l generalizing k with
  | nil => simp at h
  | cons a l ih =>
    cases k with
    | zero => rfl
    | succ k =>
      simp only [List.set_cons_succ, List.get_cons_succ]
      exact congrArg (a :: ·) (ih k (Nat.lt_of_succ_lt_succ (by simpa using h)))

/-- The sample at slot `k`, together with the buffer obtained by moving the
last element into slot `k` and dropping the last slot, is a permutation of
the original buffer. -/
theorem swapRemove_perm {α : Type} (l : List α) (k : Nat) (hk : k < l.length)
    (h : l ≠ []) :
    (l.get ⟨k, hk⟩ :: (l.set k (l.getLast h)).dropLast).Perm l := by
  rcases Nat.lt_or_ge k (l.length - 1) with hlt | hge
  · have hdrop : l.drop (k + 1) ≠ [] := by
      intro hnil
      have := List.length_drop (k + 1) l
      rw [hnil] at this
      simp at this
      omega
    have hlast : l.getLast h = (l.drop (k + 1)).getLast hdrop := by
      rw [List.getLast_drop]
    have hset : l.set k (l.getLast h) =
        l.take k ++ l.getLast h :: l.drop (k + 1) :=
      List.set_eq_take_cons_drop _ hk
    have hdl : (l.set k (l.getLast h)).dropLast =
        l.take k ++ l.getLast h :: (l.drop (k + 1)).dropLast := by
      rw [hset, List.dropLast_append_of_ne_nil _ (List.cons_ne_nil _ _),
        List.dropLast_cons_of_ne_nil hdrop]
    have hdecomp : l.take k ++ l.get ⟨k, hk⟩ :: l.drop (k + 1) = l := by
      rw [← List.drop_eq_get_cons hk, List.take_append_drop]
    have hD : (l.drop (k + 1)).dropLast ++ [l.getLast h] = l.drop (k + 1) := by
      rw [hlast]
      exact List.dropLast_append_getLast hdrop
    rw [hdl]
    conv_rhs => rw [← hdecomp, ← hD]
    exact List.perm_middle.symm.trans
      (List.Perm.append_left _ (List.Perm.cons _
        (List.perm_append_singleton _ _).symm))
  · have hk' : k = l.length - 1 := by omega
    have hget : l.get ⟨k, hk⟩ = l.getLast h := by
      rw [List.getLast_eq_get]
      congr 1
      exact Fin.ext hk'
    have hset : l.set k (l.getLast h) = l := by
      rw [← hget]
      exact set_get_self l k hk
    rw [hset, hget]
    conv_rhs => rw [← List.dropLast_append_getLast h]
    exact (List.perm_append_singleton _ _).symm

/-- On a non-empty buffer `_pick` succeeds and is exactly a swap-remove at
the in-range index `rng.randint(0, len(buf) - 1) = g t % len(buf)`. -/
theorem _pick_eq {α : Type} (buf : List α) (g : Nat → Nat) (t : Nat)
    (h : buf ≠ []) :
    _pick buf g t =
      some (buf.get ⟨g t % buf.length, Nat.mod_lt _ (List.length_pos.mpr h)⟩,
        (buf.set (g t % buf.length) (buf.getLast h)).dropLast) := by
  have hlen : buf.length ≠ 0 := fun hh => h (List.length_eq_zero.mp hh)
  have hmod : g t % buf.length < buf.length :=
    Nat.mod_lt _ (Nat.pos_of_ne_zero hlen)
  simp only [_pick, randint0, if_neg hlen, dif_pos hmod]

/-- The empty buffer is exactly the error case of `_pick`: the draw over
`[0, len(buf) - 1]` has an empty range only then, and the chosen index is
otherwise always in bounds. -/
theorem _pick_eq_none_iff {α : Type} (buf : List α) (g : Nat → Nat) (t : Nat) :
    _pick buf g t = none ↔ buf = [] := by
  constructor
  · intro hnone
    by_contra hne
    rw [_pick_eq buf g t hne] at hnone
    exact Option.some_ne_none _ hnone
  · intro hnil
    subst hnil
    rfl

/-- A successful pick shrinks the buffer by exactly one slot. -/
theorem _pick_some_length {α : Type} {buf buf2 : List α} {s : α}
    {g : Nat → Nat} {t : Nat} (heq : _pick buf g t = some (s, buf2)) :
    buf2.length + 1 = buf.length := by
  have hne : buf ≠ [] := by
    intro hnil
    subst hnil
    exact Option.some_ne_none _ (heq.symm.trans ((_pick_eq_none_iff [] g t).mpr rfl))
  rw [_pick_eq buf g t hne] at heq
  have hb2 : buf2 = (buf.set (g t % buf.length) (buf.getLast hne)).dropLast :=
    (congrArg Prod.snd (Option.some.inj heq)).symm
  rw [hb2]
  simp only [List.length_dropLast, List.length_set]
  have := List.length_pos.mpr hne
  omega

/-- A successful pick removes exactly one occurrence of the picked sample:
the sample together with the new buffer is a permutation of the old
buffer. -/
theorem _pick_some_perm {α : Type} {buf buf2 : List α} {s : α}
    {g : Nat → Nat} {t : Nat} (heq : _pick buf g t = some (s, buf2)) :
    (s :: buf2).Perm buf := by
  have hne : buf ≠ [] := by
    intro hnil
    subst hnil
    exact Option.some_ne_none _ (heq.symm.trans ((_pick_eq_none_iff [] g t).mpr rfl))
  rw [_pick_eq buf g t hne] at heq
  have hb2 : buf2 = (buf.set (g t % buf.length) (buf.getLast hne)).dropLast :=
    (congrArg Prod.snd (Option.some.inj heq)).symm
  have hs : s = buf.get ⟨g t % buf.length, Nat.mod_lt _ (List.length_pos.mpr hne)⟩ :=
    (congrArg Prod.fst (Option.some.inj heq)).symm
  rw [hs, hb2]
  exact swapRemove_perm buf _ _ hne

/-- `_pick` consults the generator only at the current draw counter. -/
theorem _pick_congr {α : Type} (buf : List α) {g₁ g₂ : Nat → Nat} {t : Nat}
    (hg : g₁ t = g₂ t) : _pick buf g₁ t = _pick buf g₂ t := by
  simp only [_pick, randint0, hg]

/-! Facts about traces and the drain loop. -/

@[simp]
theorem emitted_nil {α : Type} : emitted ([] : List (Ev α × List α)) = [] := rfl

@[simp]
theorem emitted_cons_pull {α : Type} (x : α) (b : List α)
    (tr : List (Ev α × List α)) :
    emitted ((Ev.pull x, b) :: tr) = emitted tr := rfl

@[simp]
theorem emitted_cons_emitM {α : Type} (s : α) (b : List α)
    (tr : List (Ev α × List α)) :
    emitted ((Ev.emitM s, b) :: tr) = s :: emitted tr := rfl

@[simp]
theorem emitted_cons_emitD {α : Type} (s : α) (b : List α)
    (tr : List (Ev α × List α)) :
    emitted ((Ev.emitD s, b) :: tr) = s :: emitted tr := rfl

@[simp]
theorem pullsBeforeFirstEmit_nil {α : Type} :
    pullsBeforeFirstEmit ([] : List (Ev α × List α)) = 0 := rfl

@[simp]
theorem pullsBeforeFirstEmit_cons_pull {α : Type} (x : α) (b : List α)
    (tr : List (Ev α × List α)) :
    pullsBeforeFirstEmit ((Ev.pull x, b) :: tr) = pullsBeforeFirstEmit tr + 1 := by
  simp [pullsBeforeFirstEmit, List.takeWhile_cons, isEmit]

@[simp]
theorem pullsBeforeFirstEmit_cons_emitM {α : Type} (s : α) (b : List α)
    (tr : List (Ev α × List α)) :
    pullsBeforeFirstEmit ((Ev.emitM s, b) :: tr) = 0 := by
  simp [pullsBeforeFirstEmit, List.takeWhile_cons, isEmit]

@[simp]
theorem pullsBeforeFirstEmit_cons_emitD {α : Type} (s : α) (b : List α)
    (tr : List (Ev α × List α)) :
    pullsBeforeFirstEmit ((Ev.emitD s, b) :: tr) = 0 := by
  simp [pullsBeforeFirstEmit, List.takeWhile_cons, isEmit]

/-- A trace consisting only of drain emissions has no pulls before its
first emission. -/
theorem pullsBeforeFirstEmit_of_all_emitD {α : Type}
    (tr : List (Ev α × List α)) (h : ∀ o ∈ tr, ∃ s, o.1 = Ev.emitD s) :
    pullsBeforeFirstEmit tr = 0 := by
  cases tr with
  | nil => rfl
  | cons o tr =>
    obtain ⟨s, hs⟩ := h o (List.mem_cons_self o tr)
    obtain ⟨e, b⟩ := o
    simp only at hs
    subst hs
    simp

/-- The drain loop with sufficient fuel succeeds, emits exactly the buffer
contents (as a multiset), and every observation is a drain emission whose
buffer is strictly smaller than the starting buffer. -/
theorem drainLoop_spec {α : Type} (g : Nat → Nat) :
    ∀ (fuel : Nat) (buf : List α) (t : Nat), buf.length ≤ fuel →
      ∃ tr, drainLoop g fuel buf t = some tr ∧
        (emitted tr).Perm buf ∧
        (∀ o ∈ tr, o.2.length + 1 ≤ buf.length) ∧
        (∀ o ∈ tr, ∃ s, o.1 = Ev.emitD s) := by
  intro fuel
  induction fuel with
  | zero =>
    intro buf t hlen
    have hnil : buf = [] := List.length_eq_zero.mp (Nat.le_zero.mp hlen)
    subst hnil
    exact ⟨[], rfl, List.Perm.refl _, by simp, by simp⟩
  | succ fuel ih =>
    intro buf t hlen
    match buf with
    | [] => exact ⟨[], rfl, List.Perm.refl _, by simp, by simp⟩
    | b :: bs =>
      have hne : (b :: bs) ≠ [] := List.cons_ne_nil _ _
      obtain ⟨s, buf2, hpick⟩ : ∃ s buf2, _pick (b :: bs) g t = some (s, buf2) := by
        cases hp : _pick (b :: bs) g t with
        | none => exact absurd ((_pick_eq_none_iff _ g t).mp hp) hne
        | some v =>
          obtain ⟨s', b'⟩ := v
          exact ⟨s', b', rfl⟩
      have hlen2 : buf2.length + 1 = (b :: bs).length := _pick_some_length hpick
      simp only [List.length_cons] at hlen2 hlen
      obtain ⟨tr2, htr2, hperm2, hb2, he2⟩ := ih buf2 (t + 1) (by omega)
      refine ⟨(Ev.emitD s, buf2) :: tr2, ?_, ?_, ?_, ?_⟩
      · simp [drainLoop, hpick, htr2]
      · simpa using ((hperm2.cons s).trans (_pick_some_perm hpick))
      · intro o ho
        rcases List.mem_cons.mp ho with h1 | h1
        · subst h1
          simp only [List.length_cons]
          omega
        · have h3 := hb2 o h1
          simp only [List.length_cons]
          omega
      · intro o ho
        rcases List.mem_cons.mp ho with h1 | h1
        · subst h1
          exact ⟨s, rfl⟩
        · exact he2 o h1

/-- The drain loop consults the generator only at draw counters below
`t + buf.length`. -/
theorem drainLoop_congr {α : Type} {g₁ g₂ : Nat → Nat} :
    ∀ (fuel : Nat) (buf : List α) (t : Nat), buf.length ≤ fuel →
      (∀ i, i < t + buf.length → g₁ i = g₂ i) →
      drainLoop g₁ fuel buf t = drainLoop g₂ fuel buf t := by
  intro fuel
  induction fuel with
  | zero =>
    intro buf t hlen hg
    have hnil : buf = [] := List.length_eq_zero.mp (Nat.le_zero.mp hlen)
    subst hnil
    rfl
  | succ fuel ih =>
    intro buf t hlen hg
    match buf with
    | [] => rfl
    | b :: bs =>
      have hg1 : g₁ t = g₂ t := hg t (by simp)
      have hpickeq : _pick (b :: bs) g₁ t = _pick (b :: bs) g₂ t :=
        _pick_congr _ hg1
      simp only [List.length_cons] at hlen hg
      cases hp : _pick (b :: bs) g₁ t with
      | none =>
        have hp2 : _pick (b :: bs) g₂ t = none := hpickeq ▸ hp
        simp [drainLoop, hp, hp2]
      | some v =>
        obtain ⟨s, buf2⟩ := v
        have hp2 : _pick (b :: bs) g₂ t = some (s, buf2) := hpickeq ▸ hp
        have hlen2 : buf2.length + 1 = (b :: bs).length := _pick_some_length hp
        simp only [List.length_cons] at hlen2
        simp only [drainLoop, hp, hp2]
        rw [ih buf2 (t + 1) (by omega) (fun i hi => hg i (by omega))]

/-! Unfolding lemmas for the five reachable branches of `mainLoop`. -/

/-- Upstream exhausted: the main loop hands over to the drain loop. -/
theorem mainLoop_nil {α : Type} (buffer_size initial : Int) (g : Nat → Nat)
    (buf : List α) (t : Nat) :
    mainLoop buffer_size initial g [] buf t = drainLoop g buf.length buf t :=
  rfl

/-- Last upstream sample, fill level reached: append, failed top-up, pick. -/
theorem mainLoop_single_pick {α : Type} {buffer_size initial : Int}
    {g : Nat → Nat} {x s : α} {buf buf2 : List α} {t : Nat}
    (hinit : initial ≤ ((buf ++ [x]).length : Int))
    (hpick : _pick (buf ++ [x]) g t = some (s, buf2)) :
    mainLoop buffer_size initial g [x] buf t =
      (drainLoop g buf2.length buf2 (t + 1)).map
        (fun tr => (Ev.pull x, buf ++ [x]) :: (Ev.emitM s, buf2) :: tr) := by
  simp only [mainLoop]
  rw [if_pos hinit, hpick]

/-- Last upstream sample, fill level not reached: append, failed top-up,
no pick, drain. -/
theorem mainLoop_single_nopick {α : Type} {buffer_size initial : Int}
    {g : Nat → Nat} {x : α} {buf : List α} {t : Nat}
    (hinit : ¬ initial ≤ ((buf ++ [x]).length : Int)) :
    mainLoop buffer_size initial g [x] buf t =
      (drainLoop g (buf ++ [x]).length (buf ++ [x]) t).map
        (fun tr => (Ev.pull x, buf ++ [x]) :: tr) := by
  simp only [mainLoop]
  rw [if_neg hinit]

/-- Two or more upstream samples left, buffer below capacity after the
append, fill level reached after the top-up: append, top-up, pick. -/
theorem mainLoop_cons₂_topup_pick {α : Type} {buffer_size initial : Int}
    {g : Nat → Nat} {x y s : α} {rest buf buf3 : List α} {t : Nat}
    (hlt : ((buf ++ [x]).length : Int) < buffer_size)
    (hinit : initial ≤ ((buf ++ [x] ++ [y]).length : Int))
    (hpick : _pick (buf ++ [x] ++ [y]) g t = some (s, buf3)) :
    mainLoop buffer_size initial g (x :: y :: rest) buf t =
      (mainLoop buffer_size initial g rest buf3 (t + 1)).map
        (fun tr => (Ev.pull x, buf ++ [x]) :: (Ev.pull y, buf ++ [x] ++ [y]) ::
          (Ev.emitM s, buf3) :: tr) := by
  simp only [mainLoop]
  rw [if_pos hlt, if_pos hinit, hpick]

/-- Two or more upstream samples left, buffer below capacity after the
append, fill level not reached after the top-up: append, top-up, no pick. -/
theorem mainLoop_cons₂_topup_nopick {α : Type} {buffer_size initial : Int}
    {g : Nat → Nat} {x y : α} {rest buf : List α} {t : Nat}
    (hlt : ((buf ++ [x]).length : Int) < buffer_size)
    (hinit : ¬ initial ≤ ((buf ++ [x] ++ [y]).length : Int)) :
    mainLoop buffer_size initial g (x :: y :: rest) buf t =
      (mainLoop buffer_size initial g rest (buf ++ [x] ++ [y]) t).map
        (fun tr => (Ev.pull x, buf ++ [x]) :: (Ev.pull y, buf ++ [x] ++ [y]) :: tr) := by
  simp only [mainLoop]
  rw [if_pos hlt, if_neg hinit]

/-- Two or more upstream samples left, buffer at or above capacity after
the append, fill level reached: append, no top-up, pick. -/
theorem mainLoop_cons₂_notopup_pick {α : Type} {buffer_size initial : Int}
    {g : Nat → Nat} {x y s : α} {rest buf buf2 : List α} {t : Nat}
    (hge : ¬ ((buf ++ [x]).length : Int) < buffer_size)
    (hinit : initial ≤ ((buf ++ [x]).length : Int))
    (hpick : _pick (buf ++ [x]) g t = some (s, buf2)) :
    mainLoop buffer_size initial g (x :: y :: rest) buf t =
      (mainLoop buffer_size initial g (y :: rest) buf2 (t + 1)).map
        (fun tr => (Ev.pull x, buf ++ [x]) :: (Ev.emitM s, buf2) :: tr) := by
  simp only [mainLoop]
  rw [if_neg hge, if_pos hinit, hpick]

/-- Two or more upstream samples left, buffer at or above capacity after
the append, fill level not reached: append, no top-up, no pick. -/
theorem mainLoop_cons₂_notopup_nopick {α : Type} {buffer_size initial : Int}
    {g : Nat → Nat} {x y : α} {rest buf : List α} {t : Nat}
    (hge : ¬ ((buf ++ [x]).length : Int) < buffer_size)
    (hinit : ¬ initial ≤ ((buf ++ [x]).length : Int)) :
    mainLoop buffer_size initial g (x :: y :: rest) buf t =
      (mainLoop buffer_size initial g (y :: rest) (buf ++ [x]) t).map
        (fun tr => (Ev.pull x, buf ++ [x]) :: tr) := by
  simp only [mainLoop]
  rw [if_neg hge, if_neg hinit]

/-- Rotating one appended element to the front is a permutation. -/
theorem perm_append_snoc {α : Type} (A B : List α) (x : α) :
    (A ++ (B ++ [x])).Perm (x :: (A ++ B)) := by
  rw [← List.append_assoc]
  exact List.perm_append_singleton _ _

/-- Rotating two appended elements to the front is a permutation. -/
theorem perm_append_snoc₂ {α : Type} (A B : List α) (x y : α) :
    (A ++ (B ++ [x] ++ [y])).Perm (x :: y :: (A ++ B)) := by
  rw [← List.append_assoc, ← List.append_assoc]
  exact (List.perm_append_singleton y ((A ++ B) ++ [x])).trans
    (((List.perm_append_singleton x (A ++ B)).cons y).trans
      (List.Perm.swap x y (A ++ B)))

/-- The main loop never fails, and one traversal emits exactly the
remaining upstream samples together with the current buffer contents, up
to permutation. -/
theorem mainLoop_runs {α : Type} (buffer_size initial : Int) (g : Nat → Nat) :
    ∀ (data buf : List α) (t : Nat),
      ∃ tr, mainLoop buffer_size initial g data buf t = some tr ∧
        (emitted tr).Perm (data ++ buf) := by
  intro data buf t
  induction data, buf, t using mainLoop.induct buffer_size initial g with
  | case1 buf t =>
    obtain ⟨tr, htr, hperm, _, _⟩ := drainLoop_spec g buf.length buf t le_rfl
    exact ⟨tr, htr, hperm⟩
  | case2 x buf t buf1 hinit hpick =>
    exact absurd ((_pick_eq_none_iff _ g t).mp hpick)
      (by simp only [buf1]; exact (by simp))
  | case3 x buf t buf1 hinit s buf2 hpick =>
    obtain ⟨tr, htr, hperm, _, _⟩ := drainLoop_spec g buf2.length buf2 (t + 1) le_rfl
    refine ⟨(Ev.pull x, buf ++ [x]) :: (Ev.emitM s, buf2) :: tr, ?_, ?_⟩
    · rw [mainLoop_single_pick hinit hpick, htr]
      rfl
    · simp only [emitted_cons_pull, emitted_cons_emitM]
      have h2 : (s :: buf2).Perm (buf ++ [x]) := _pick_some_perm hpick
      exact ((hperm.cons s).trans h2).trans (List.perm_append_singleton x buf)
  | case4 x buf t buf1 hinit =>
    obtain ⟨tr, htr, hperm, _, _⟩ :=
      drainLoop_spec g (buf ++ [x]).length (buf ++ [x]) t le_rfl
    refine ⟨(Ev.pull x, buf ++ [x]) :: tr, ?_, ?_⟩
    · rw [mainLoop_single_nopick hinit, htr]
      rfl
    · simp only [emitted_cons_pull]
      exact hperm.trans (List.perm_append_singleton x buf)
  | case5 x y rest buf t buf1 hlt buf2 hinit hpick =>
    exact absurd ((_pick_eq_none_iff _ g t).mp hpick)
      (by simp only [buf2, buf1]; exact (by simp))
  | case6 x y rest buf t buf1 hlt buf2 hinit s buf3 hpick ih =>
    obtain ⟨tr, htr, hperm⟩ := ih
    refine ⟨(Ev.pull x, buf ++ [x]) :: (Ev.pull y, buf ++ [x] ++ [y]) ::
      (Ev.emitM s, buf3) :: tr, ?_, ?_⟩
    · rw [mainLoop_cons₂_topup_pick hlt hinit hpick, htr]
      rfl
    · simp only [emitted_cons_pull, emitted_cons_emitM]
      have h2 : (s :: buf3).Perm (buf ++ [x] ++ [y]) := _pick_some_perm hpick
      exact ((hperm.cons s).trans List.perm_middle.symm).trans
        ((List.Perm.append_left rest h2).trans (perm_append_snoc₂ rest buf x y))
  | case7 x y rest buf t buf1 hlt buf2 hinit ih =>
    obtain ⟨tr, htr, hperm⟩ := ih
    refine ⟨(Ev.pull x, buf ++ [x]) :: (Ev.pull y, buf ++ [x] ++ [y]) :: tr, ?_, ?_⟩
    · rw [mainLoop_cons₂_topup_nopick hlt hinit, htr]
      rfl
    · simp only [emitted_cons_pull]
      exact hperm.trans (perm_append_snoc₂ rest buf x y)
  | case8 x y rest buf t buf1 hge hinit hpick =>
    exact absurd ((_pick_eq_none_iff _ g t).mp hpick)
      (by simp only [buf1]; exact (by simp))
  | case9 x y rest buf t buf1 hge hinit s buf2 hpick ih =>
    obtain ⟨tr, htr, hperm⟩ := ih
    refine ⟨(Ev.pull x, buf ++ [x]) :: (Ev.emitM s, buf2) :: tr, ?_, ?_⟩
    · rw [mainLoop_cons₂_notopup_pick hge hinit hpick, htr]
      rfl
    · simp only [emitted_cons_pull, emitted_cons_emitM]
      have h2 : (s :: buf2).Perm (buf ++ [x]) := _pick_some_perm hpick
      exact ((hperm.cons s).trans List.perm_middle.symm).trans
        ((List.Perm.append_left (y :: rest) h2).trans (perm_append_snoc (y :: rest) buf x))
  | case10 x y rest buf t buf1 hge hinit ih =>
    obtain ⟨tr, htr, hperm⟩ := ih
    refine ⟨(Ev.pull x, buf ++ [x]) :: tr, ?_, ?_⟩
    · rw [mainLoop_cons₂_notopup_nopick hge hinit, htr]
      rfl
    · simp only [emitted_cons_pull]
      exact hperm.trans (perm_append_snoc (y :: rest) buf x)

/-- Bounded buffering: whenever the effective fill level is at most the
capacity and the buffer starts at least one slot below capacity (as it
does at the start of a traversal with positive capacity), every
observation of the rest of the traversal shows a buffer of at most
`buffer_size` samples. -/
theorem mainLoop_bound {α : Type} (buffer_size initial : Int) (g : Nat → Nat)
    (hcap : initial ≤ buffer_size) :
    ∀ (data buf : List α) (t : Nat) (tr : List (Ev α × List α)),
      mainLoop buffer_size initial g data buf t = some tr →
      (buf.length : Int) ≤ buffer_size - 1 →
      ∀ o ∈ tr, (o.2.length : Int) ≤ buffer_size := by
  intro data buf t
  induction data, buf, t using mainLoop.induct buffer_size initial g with
  | case1 buf t =>
    intro tr heq hbuf o ho
    rw [mainLoop_nil] at heq
    obtain ⟨tr', htr', _, hb', _⟩ := drainLoop_spec g buf.length buf t le_rfl
    rw [htr'] at heq
    obtain rfl := Option.some.inj heq
    have h3 := hb' o ho
    omega
  | case2 x buf t buf1 hinit hpick =>
    exact absurd ((_pick_eq_none_iff _ g t).mp hpick)
      (by simp only [buf1]; exact (by simp))
  | case3 x buf t buf1 hinit s buf2 hpick =>
    intro tr heq hbuf o ho
    rw [mainLoop_single_pick hinit hpick] at heq
    obtain ⟨tr2, htr2, rfl⟩ := Option.map_eq_some'.mp heq
    obtain ⟨tr2', htr2', _, hb2, _⟩ := drainLoop_spec g buf2.length buf2 (t + 1) le_rfl
    rw [htr2'] at htr2
    obtain rfl := Option.some.inj htr2
    have hlen2 : buf2.length + 1 = (buf ++ [x]).length := _pick_some_length hpick
    simp only [List.length_append, List.length_cons, List.length_nil] at hlen2
    rcases List.mem_cons.mp ho with rfl | ho
    · show ((buf ++ [x]).length : Int) ≤ buffer_size
      simp only [List.length_append, List.length_cons, List.length_nil]
      omega
    rcases List.mem_cons.mp ho with rfl | ho
    · show ((buf2 : List α).length : Int) ≤ buffer_size
      omega
    · have h3 := hb2 o ho
      omega
  | case4 x buf t buf1 hinit =>
    intro tr heq hbuf o ho
    rw [mainLoop_single_nopick hinit] at heq
    obtain ⟨tr2, htr2, rfl⟩ := Option.map_eq_some'.mp heq
    obtain ⟨tr2', htr2', _, hb2, _⟩ :=
      drainLoop_spec g (buf ++ [x]).length (buf ++ [x]) t le_rfl
    rw [htr2'] at htr2
    obtain rfl := Option.some.inj htr2
    rcases List.mem_cons.mp ho with rfl | ho
    · show ((buf ++ [x]).length : Int) ≤ buffer_size
      simp only [List.length_append, List.length_cons, List.length_nil]
      omega
    · have h3 := hb2 o ho
      simp only [List.length_append, List.length_cons, List.length_nil] at h3
      omega
  | case5 x y rest buf t buf1 hlt buf2 hinit hpick =>
    exact absurd ((_pick_eq_none_iff _ g t).mp hpick)
      (by simp only [buf2, buf1]; exact (by simp))
  | case6 x y rest buf t buf1 hlt buf2 hinit s buf3 hpick ih =>
    intro tr heq hbuf o ho
    rw [mainLoop_cons₂_topup_pick hlt hinit hpick] at heq
    obtain ⟨tr2, htr2, rfl⟩ := Option.map_eq_some'.mp heq
    have hlen3 : buf3.length + 1 = (buf ++ [x] ++ [y]).length := _pick_some_length hpick
    simp only [buf2, buf1] at hlt hinit
    simp only [List.length_append, List.length_cons, List.length_nil] at hlen3 hlt hinit
    have ih2 := ih tr2 htr2 (by omega)
    rcases List.mem_cons.mp ho with rfl | ho
    · show ((buf ++ [x]).length : Int) ≤ buffer_size
      simp only [List.length_append, List.length_cons, List.length_nil]
      omega
    rcases List.mem_cons.mp ho with rfl | ho
    · show ((buf ++ [x] ++ [y]).length : Int) ≤ buffer_size
      simp only [List.length_append, List.length_cons, List.length_nil]
      omega
    rcases List.mem_cons.mp ho with rfl | ho
    · show ((buf3 : List α).length : Int) ≤ buffer_size
      omega
    · exact ih2 o ho
  | case7 x y rest buf t buf1 hlt buf2 hinit ih =>
    intro tr heq hbuf o ho
    rw [mainLoop_cons₂_topup_nopick hlt hinit] at heq
    obtain ⟨tr2, htr2, rfl⟩ := Option.map_eq_some'.mp heq
    simp only [buf2, buf1] at hlt hinit
    simp only [List.length_append, List.length_cons, List.length_nil] at hlt hinit
    have hnext : (((buf ++ [x] ++ [y]) : List α).length : Int) ≤ buffer_size - 1 := by
      simp only [List.length_append, List.length_cons, List.length_nil]
      omega
    have ih2 := ih tr2 htr2 hnext
    rcases List.mem_cons.mp ho with rfl | ho
    · show ((buf ++ [x]).length : Int) ≤ buffer_size
      simp only [List.length_append, List.length_cons, List.length_nil]
      omega
    rcases List.mem_cons.mp ho with rfl | ho
    · show ((buf ++ [x] ++ [y]).length : Int) ≤ buffer_size
      simp only [List.length_append, List.length_cons, List.length_nil]
      omega
    · exact ih2 o ho
  | case8 x y rest buf t buf1 hge hinit hpick =>
    exact absurd ((_pick_eq_none_iff _ g t).mp hpick)
      (by simp only [buf1]; exact (by simp))
  | case9 x y rest buf t buf1 hge hinit s buf2 hpick ih =>
    intro tr heq hbuf o ho
    rw [mainLoop_cons₂_notopup_pick hge hinit hpick] at heq
    obtain ⟨tr2, htr2, rfl⟩ := Option.map_eq_some'.mp heq
    have hlen2 : buf2.length + 1 = (buf ++ [x]).length := _pick_some_length hpick
    simp only [buf1] at hge hinit
    simp only [List.length_append, List.length_cons, List.length_nil] at hlen2 hge hinit
    have ih2 := ih tr2 htr2 (by omega)
    rcases List.mem_cons.mp ho with rfl | ho
    · show ((buf ++ [x]).length : Int) ≤ buffer_size
      simp only [List.length_append, List.length_cons, List.length_nil]
      omega
    rcases List.mem_cons.mp ho with rfl | ho
    · show ((buf2 : List α).length : Int) ≤ buffer_size
      omega
    · exact ih2 o ho
  | case10 x y rest buf t buf1 hge hinit ih =>
    intro tr heq hbuf o ho
    rw [mainLoop_cons₂_notopup_nopick hge hinit] at heq
    obtain ⟨tr2, htr2, rfl⟩ := Option.map_eq_some'.mp heq
    simp only [buf1] at hge hinit
    simp only [List.length_append, List.length_cons, List.length_nil] at hge hinit
    have hnext : (((buf ++ [x]) : List α).length : Int) ≤ buffer_size - 1 := by
      simp only [List.length_append, List.length_cons, List.length_nil]
      omega
    have ih2 := ih tr2 htr2 hnext
    rcases List.mem_cons.mp ho with rfl | ho
    · show ((buf ++ [x]).length : Int) ≤ buffer_size
      simp only [List.length_append, List.length_cons, List.length_nil]
      omega
    · exact ih2 o ho

/-- One traversal consults the generator only at draw counters below
`t + data.length + buf.length` (one draw per emitted sample): two
generator streams that agree on those draws drive identical loops. -/
theorem mainLoop_congr {α : Type} (buffer_size initial : Int) {g₁ g₂ : Nat → Nat} :
    ∀ (data buf : List α) (t : Nat),
      (∀ i, i < t + data.length + buf.length → g₁ i = g₂ i) →
      mainLoop buffer_size initial g₁ data buf t =
        mainLoop buffer_size initial g₂ data buf t := by
  intro data buf t
  induction data, buf, t using mainLoop.induct buffer_size initial g₁ with
  | case1 buf t =>
    intro hg
    rw [mainLoop_nil, mainLoop_nil]
    exact drainLoop_congr buf.length buf t le_rfl
      (fun i hi => hg i (by simp only [List.length_nil]; omega))
  | case2 x buf t buf1 hinit hpick =>
    exact absurd ((_pick_eq_none_iff _ g₁ t).mp hpick)
      (by simp only [buf1]; exact (by simp))
  | case3 x buf t buf1 hinit s buf2 hpick =>
    intro hg
    have hg1 : g₁ t = g₂ t := hg t (by simp only [List.length_cons, List.length_nil]; omega)
    have hpick₂ : _pick (buf ++ [x]) g₂ t = some (s, buf2) :=
      (_pick_congr _ hg1).symm.trans hpick
    rw [mainLoop_single_pick hinit hpick, mainLoop_single_pick hinit hpick₂]
    have hlen2 : buf2.length + 1 = (buf ++ [x]).length := _pick_some_length hpick
    simp only [List.length_append, List.length_cons, List.length_nil] at hlen2
    rw [drainLoop_congr buf2.length buf2 (t + 1) le_rfl (fun i hi => hg i (by
      simp only [List.length_cons, List.length_nil]
      omega))]
  | case4 x buf t buf1 hinit =>
    intro hg
    rw [mainLoop_single_nopick hinit, mainLoop_single_nopick hinit]
    rw [drainLoop_congr (buf ++ [x]).length (buf ++ [x]) t le_rfl (fun i hi => hg i (by
      simp only [List.length_append, List.length_cons, List.length_nil] at hi ⊢
      omega))]
  | case5 x y rest buf t buf1 hlt buf2 hinit hpick =>
    exact absurd ((_pick_eq_none_iff _ g₁ t).mp hpick)
      (by simp only [buf2, buf1]; exact (by simp))
  | case6 x y rest buf t buf1 hlt buf2 hinit s buf3 hpick ih =>
    intro hg
    have hg1 : g₁ t = g₂ t := hg t (by simp only [List.length_cons]; omega)
    have hpick₂ : _pick (buf ++ [x] ++ [y]) g₂ t = some (s, buf3) :=
      (_pick_congr _ hg1).symm.trans hpick
    rw [mainLoop_cons₂_topup_pick hlt hinit hpick,
      mainLoop_cons₂_topup_pick hlt hinit hpick₂]
    have hlen3 : buf3.length + 1 = (buf ++ [x] ++ [y]).length := _pick_some_length hpick
    simp only [List.length_append, List.length_cons, List.length_nil] at hlen3
    rw [ih (fun i hi => hg i (by
      simp only [List.length_cons] at hi ⊢
      omega))]
  | case7 x y rest buf t buf1 hlt buf2 hinit ih =>
    intro hg
    rw [mainLoop_cons₂_topup_nopick hlt hinit, mainLoop_cons₂_topup_nopick hlt hinit]
    rw [ih (fun i hi => hg i (by
      simp only [buf2, buf1] at hi
      simp only [List.length_append, List.length_cons, List.length_nil] at hi ⊢
      omega))]
  | case8 x y rest buf t buf1 hge hinit hpick =>
    exact absurd ((_pick_eq_none_iff _ g₁ t).mp hpick)
      (by simp only [buf1]; exact (by simp))
  | case9 x y rest buf t buf1 hge hinit s buf2 hpick ih =>
    intro hg
    have hg1 : g₁ t = g₂ t := hg t (by simp only [List.length_cons]; omega)
    have hpick₂ : _pick (buf ++ [x]) g₂ t = some (s, buf2) :=
      (_pick_congr _ hg1).symm.trans hpick
    rw [mainLoop_cons₂_notopup_pick hge hinit hpick,
      mainLoop_cons₂_notopup_pick hge hinit hpick₂]
    have hlen2 : buf2.length + 1 = (buf ++ [x]).length := _pick_some_length hpick
    simp only [List.length_append, List.length_cons, List.length_nil] at hlen2
    rw [ih (fun i hi => hg i (by
      simp only [List.length_cons] at hi ⊢
      omega))]
  | case10 x y rest buf t buf1 hge hinit ih =>
    intro hg
    rw [mainLoop_cons₂_notopup_nopick hge hinit, mainLoop_cons₂_notopup_nopick hge hinit]
    rw [ih (fun i hi => hg i (by
      simp only [buf1] at hi
      simp only [List.length_append, List.length_cons, List.length_nil] at hi ⊢
      omega))]

/-- Startup latency, generalised over the loop state: in any trace of the
remaining traversal, either the fill-level guard was the reason for the
first emission (so the buffer had reached `initial` by then, and the
pulls before it account for the growth from `buf`), or every remaining
upstream sample was pulled before the first emission. -/
theorem mainLoop_startup {α : Type} (buffer_size initial : Int) (g : Nat → Nat) :
    ∀ (data buf : List α) (t : Nat) (tr : List (Ev α × List α)),
      mainLoop buffer_size initial g data buf t = some tr →
      initial ≤ (buf.length : Int) + (pullsBeforeFirstEmit tr : Int) ∨
        (pullsBeforeFirstEmit tr : Int) = (data.length : Int) := by
  intro data buf t
  induction data, buf, t using mainLoop.induct buffer_size initial g with
  | case1 buf t =>
    intro tr heq
    rw [mainLoop_nil] at heq
    obtain ⟨tr', htr', _, _, he'⟩ := drainLoop_spec g buf.length buf t le_rfl
    rw [htr'] at heq
    obtain rfl := Option.some.inj heq
    right
    rw [pullsBeforeFirstEmit_of_all_emitD _ he']
    simp
  | case2 x buf t buf1 hinit hpick =>
    exact absurd ((_pick_eq_none_iff _ g t).mp hpick)
      (by simp only [buf1]; exact (by simp))
  | case3 x buf t buf1 hinit s buf2 hpick =>
    intro tr heq
    rw [mainLoop_single_pick hinit hpick] at heq
    obtain ⟨tr2, htr2, rfl⟩ := Option.map_eq_some'.mp heq
    left
    simp only [buf1] at hinit
    simp only [List.length_append, List.length_cons, List.length_nil] at hinit
    simp only [pullsBeforeFirstEmit_cons_pull, pullsBeforeFirstEmit_cons_emitM]
    omega
  | case4 x buf t buf1 hinit =>
    intro tr heq
    rw [mainLoop_single_nopick hinit] at heq
    obtain ⟨tr2, htr2, rfl⟩ := Option.map_eq_some'.mp heq
    obtain ⟨tr2', htr2', _, _, he'⟩ :=
      drainLoop_spec g (buf ++ [x]).length (buf ++ [x]) t le_rfl
    rw [htr2'] at htr2
    obtain rfl := Option.some.inj htr2
    right
    rw [pullsBeforeFirstEmit_cons_pull, pullsBeforeFirstEmit_of_all_emitD _ he']
    simp
  | case5 x y rest buf t buf1 hlt buf2 hinit hpick =>
    exact absurd ((_pick_eq_none_iff _ g t).mp hpick)
      (by simp only [buf2, buf1]; exact (by simp))
  | case6 x y rest buf t buf1 hlt buf2 hinit s buf3 hpick ih =>
    intro tr heq
    rw [mainLoop_cons₂_topup_pick hlt hinit hpick] at heq
    obtain ⟨tr2, htr2, rfl⟩ := Option.map_eq_some'.mp heq
    left
    simp only [buf2, buf1] at hinit
    simp only [List.length_append, List.length_cons, List.length_nil] at hinit
    simp only [pullsBeforeFirstEmit_cons_pull, pullsBeforeFirstEmit_cons_emitM]
    omega
  | case7 x y rest buf t buf1 hlt buf2 hinit ih =>
    intro tr heq
    rw [mainLoop_cons₂_topup_nopick hlt hinit] at heq
    obtain ⟨tr2, htr2, rfl⟩ := Option.map_eq_some'.mp heq
    simp only [pullsBeforeFirstEmit_cons_pull]
    rcases ih tr2 htr2 with h | h
    · left
      simp only [buf2, buf1] at h
      simp only [List.length_append, List.length_cons, List.length_nil] at h
      omega
    · right
      simp only [List.length_cons]
      omega
  | case8 x y rest buf t buf1 hge hinit hpick =>
    exact absurd ((_pick_eq_none_iff _ g t).mp hpick)
      (by simp only [buf1]; exact (by simp))
  | case9 x y rest buf t buf1 hge hinit s buf2 hpick ih =>
    intro tr heq
    rw [mainLoop_cons₂_notopup_pick hge hinit hpick] at heq
    obtain ⟨tr2, htr2, rfl⟩ := Option.map_eq_some'.mp heq
    left
    simp only [buf1] at hinit
    simp only [List.length_append, List.length_cons, List.length_nil] at hinit
    simp only [pullsBeforeFirstEmit_cons_pull, pullsBeforeFirstEmit_cons_emitM]
    omega
  | case10 x y rest buf t buf1 hge hinit ih =>
    intro tr heq
    rw [mainLoop_cons₂_notopup_nopick hge hinit] at heq
    obtain ⟨tr2, htr2, rfl⟩ := Option.map_eq_some'.mp heq
    simp only [pullsBeforeFirstEmit_cons_pull]
    rcases ih tr2 htr2 with h | h
    · left
      simp only [buf1] at h
      simp only [List.length_append, List.length_cons, List.length_nil] at h
      omega
    · right
      simp only [List.length_cons] at h ⊢
      omega

/-- When the whole remaining upstream cannot bring the buffer up to the
fill level, the main loop never emits: every emission in the trace comes
from the final drain. -/
theorem mainLoop_noMainEmit {α : Type} (buffer_size initial : Int) (g : Nat → Nat) :
    ∀ (data buf : List α) (t : Nat) (tr : List (Ev α × List α)),
      mainLoop buffer_size initial g data buf t = some tr →
      (buf.length : Int) + (data.length : Int) < initial →
      ∀ o ∈ tr, isMainEmit o.1 = false := by
  intro data buf t
  induction data, buf, t using mainLoop.induct buffer_size initial g with
  | case1 buf t =>
    intro tr heq hshort o ho
    rw [mainLoop_nil] at heq
    obtain ⟨tr', htr', _, _, he'⟩ := drainLoop_spec g buf.length buf t le_rfl
    rw [htr'] at heq
    obtain rfl := Option.some.inj heq
    obtain ⟨s, hs⟩ := he' o ho
    rw [hs]
    rfl
  | case2 x buf t buf1 hinit hpick =>
    exact absurd ((_pick_eq_none_iff _ g t).mp hpick)
      (by simp only [buf1]; exact (by simp))
  | case3 x buf t buf1 hinit s buf2 hpick =>
    intro tr heq hshort
    exfalso
    simp only [buf1] at hinit
    simp only [List.length_append, List.length_cons, List.length_nil] at hinit hshort
    omega
  | case4 x buf t buf1 hinit =>
    intro tr heq hshort o ho
    rw [mainLoop_single_nopick hinit] at heq
    obtain ⟨tr2, htr2, rfl⟩ := Option.map_eq_some'.mp heq
    obtain ⟨tr2', htr2', _, _, he'⟩ :=
      drainLoop_spec g (buf ++ [x]).length (buf ++ [x]) t le_rfl
    rw [htr2'] at htr2
    obtain rfl := Option.some.inj htr2
    rcases List.mem_cons.mp ho with rfl | ho
    · rfl
    · obtain ⟨s, hs⟩ := he' o ho
      rw [hs]
      rfl
  | case5 x y rest buf t buf1 hlt buf2 hinit hpick =>
    exact absurd ((_pick_eq_none_iff _ g t).mp hpick)
      (by simp only [buf2, buf1]; exact (by simp))
  | case6 x y rest buf t buf1 hlt buf2 hinit s buf3 hpick ih =>
    intro tr heq hshort
    exfalso
    simp only [buf2, buf1] at hinit
    simp only [List.length_append, List.length_cons, List.length_nil] at hinit hshort
    omega
  | case7 x y rest buf t buf1 hlt buf2 hinit ih =>
    intro tr heq hshort o ho
    rw [mainLoop_cons₂_topup_nopick hlt hinit] at heq
    obtain ⟨tr2, htr2, rfl⟩ := Option.map_eq_some'.mp heq
    have hshort2 : ((buf ++ [x] ++ [y]).length : Int) + (rest.length : Int) < initial := by
      simp only [List.length_append, List.length_cons, List.length_nil] at hshort ⊢
      omega
    rcases List.mem_cons.mp ho with rfl | ho
    · rfl
    rcases List.mem_cons.mp ho with rfl | ho
    · rfl
    · exact ih tr2 htr2 hshort2 o ho
  | case8 x y rest buf t buf1 hge hinit hpick =>
    exact absurd ((_pick_eq_none_iff _ g t).mp hpick)
      (by simp only [buf1]; exact (by simp))
  | case9 x y rest buf t buf1 hge hinit s buf2 hpick ih =>
    intro tr heq hshort
    exfalso
    simp only [buf1] at hinit
    simp only [List.length_append, List.length_cons, List.length_nil] at hinit hshort
    omega
  | case10 x y rest buf t buf1 hge hinit ih =>
    intro tr heq hshort o ho
    rw [mainLoop_cons₂_notopup_nopick hge hinit] at heq
    obtain ⟨tr2, htr2, rfl⟩ := Option.map_eq_some'.mp heq
    have hshort2 : ((buf ++ [x]).length : Int) + ((y :: rest).length : Int) < initial := by
      simp only [List.length_append, List.length_cons, List.length_nil] at hshort ⊢
      omega
    rcases List.mem_cons.mp ho with rfl | ho
    · rfl
    · exact ih tr2 htr2 hshort2 o ho

/-- On a one-element buffer the draw is over `[0, 0]`, so index 0 is
picked and the buffer empties. -/
theorem _pick_singleton {α : Type} (x : α) (g : Nat → Nat) (t : Nat) :
    _pick [x] g t = some (x, []) := by
  simp [_pick, randint0, Nat.mod_one]

@[simp]
theorem emitted_append {α : Type} (tr₁ tr₂ : List (Ev α × List α)) :
    emitted (tr₁ ++ tr₂) = emitted tr₁ ++ emitted tr₂ :=
  List.filterMap_append tr₁ tr₂ _

/-- Degenerate pass-through: with a non-positive capacity the top-up is
never taken (the buffer is never strictly below capacity) and the fill
level is met at occupancy 1, so each iteration appends one sample and
immediately picks it back out of the singleton buffer; the loop ends with
an empty buffer and the drain does nothing. -/
theorem mainLoop_passthrough {α : Type} (buffer_size initial : Int)
    (g : Nat → Nat) (hbs : buffer_size ≤ 0) (hinit0 : initial ≤ 0) :
    ∀ (data : List α) (t : Nat),
      mainLoop buffer_size initial g data [] t =
        some (data.bind fun x => [(Ev.pull x, [x]), (Ev.emitM x, [])]) := by
  intro data
  induction data with
  | nil => intro t; rfl
  | cons x rest ih =>
    intro t
    cases rest with
    | nil =>
      have hinit : initial ≤ ((([] : List α) ++ [x]).length : Int) := by
        simp only [List.nil_append, List.length_cons, List.length_nil]
        omega
      rw [mainLoop_single_pick hinit (_pick_singleton x g t)]
      rfl
    | cons y rest' =>
      have hge : ¬ ((([] : List α) ++ [x]).length : Int) < buffer_size := by
        simp only [List.nil_append, List.length_cons, List.length_nil]
        omega
      have hinit : initial ≤ ((([] : List α) ++ [x]).length : Int) := by
        simp only [List.nil_append, List.length_cons, List.length_nil]
        omega
      rw [mainLoop_cons₂_notopup_pick hge hinit (_pick_singleton x g t)]
      rw [ih (t + 1)]
      rfl

/-- Extracting the emissions of a pass-through trace recovers the input in
order. -/
theorem emitted_passthrough {α : Type} (data : List α) :
    emitted (data.bind fun x => [(Ev.pull x, [x]), (Ev.emitM x, [])]) = data := by
  induction data with
  | nil => rfl
  | cons x rest ih =>
    have h1 : ((x :: rest).bind fun x => [(Ev.pull x, [x]), (Ev.emitM x, [])]) =
        (Ev.pull x, [x]) :: (Ev.emitM x, []) ::
          (rest.bind fun x => [(Ev.pull x, [x]), (Ev.emitM x, [])]) := rfl
    rw [h1, emitted_cons_pull, emitted_cons_emitM, ih]

/-! Claim theorems. -/

/-- Claim C1: for every finite input sequence and every random generator,
a complete traversal of the shuffler emits a multiset of samples equal to
the multiset of input samples — hence also the same count: no sample is
lost, duplicated, or altered. -/
theorem multiset_preservation {α : Type} (initial buffer_size : Int)
    (g : Nat → Nat) (input : List α) :
    ∃ out, incshuffle initial buffer_size g input = some out ∧
      (out : Multiset α) = (input : Multiset α) ∧
      out.length = input.length := by
  obtain ⟨tr, htr, hperm⟩ :=
    mainLoop_runs buffer_size (min initial buffer_size) g input [] 0
  have hperm' : (emitted tr).Perm input := by simpa using hperm
  refine ⟨emitted tr, ?_, Multiset.coe_eq_coe.mpr hperm', hperm'.length_eq⟩
  simp only [incshuffle]
  rw [show incshuffleTrace initial buffer_size g input = some tr from htr]
  rfl

/-- Claim C10: every invocation of `_pick` made by the traversal occurs
with a non-empty buffer, so the draw over `[0, len(buf) - 1]` is never
over an empty range, the chosen index is in bounds, and the error branch
of `_pick` is unreachable: `_pick` succeeds on every non-empty buffer and
the whole traversal always succeeds. -/
theorem pick_always_safe :
    (∀ (α : Type) (buf : List α) (g : Nat → Nat) (t : Nat), buf ≠ [] →
      (_pick buf g t).isSome = true) ∧
    (∀ (α : Type) (initial buffer_size : Int) (g : Nat → Nat) (input : List α),
      (incshuffle initial buffer_size g input).isSome = true) := by
  constructor
  · intro α buf g t hne
    rw [_pick_eq buf g t hne]
    rfl
  · intro α initial buffer_size g input
    obtain ⟨tr, htr, _⟩ :=
      mainLoop_runs buffer_size (min initial buffer_size) g input [] 0
    simp only [incshuffle]
    rw [show incshuffleTrace initial buffer_size g input = some tr from htr]
    rfl

/-- Witness for C10 at a concrete non-empty buffer. -/
theorem pick_always_safe_witness :
    ([5] : List Nat) ≠ [] ∧ (_pick [5] g0 0).isSome = true :=
  ⟨by decide, pick_always_safe.1 Nat [5] g0 0 (by decide)⟩

/-- Claim C2: for every input sequence, every `initial`, and every
`buffer_size ≥ 1`, at every observation point of a traversal — after each
append, each pick, and hence each yield — the buffer occupancy satisfies
`0 ≤ len(buffer) ≤ buffer_size`. -/
theorem bounded_buffering {α : Type} (initial buffer_size : Int)
    (g : Nat → Nat) (input : List α) (tr : List (Ev α × List α))
    (hbs : 1 ≤ buffer_size)
    (htr : incshuffleTrace initial buffer_size g input = some tr) :
    ∀ o ∈ tr, 0 ≤ (o.2.length : Int) ∧ (o.2.length : Int) ≤ buffer_size := by
  intro o ho
  refine ⟨Int.natCast_nonneg _, ?_⟩
  exact mainLoop_bound buffer_size (min initial buffer_size) g
    (min_le_right _ _) input [] 0 tr htr
    (by simp only [List.length_nil, Nat.cast_zero]; omega) o ho

/-- Witness for C2 on a concrete traversal and observation. -/
theorem bounded_buffering_witness :
    0 ≤ (([1] : List Nat).length : Int) ∧ (([1] : List Nat).length : Int) ≤ 3 :=
  (bounded_buffering 2 3 g0 [1, 2, 3, 4, 5]
    [(Ev.pull 1, [1]), (Ev.pull 2, [1, 2]), (Ev.emitM 1, [2]),
     (Ev.pull 3, [2, 3]), (Ev.pull 4, [2, 3, 4]), (Ev.emitM 2, [4, 3]),
     (Ev.pull 5, [4, 3, 5]), (Ev.emitM 4, [5, 3]), (Ev.emitD 5, [3]),
     (Ev.emitD 3, [])]
    (by decide) (by decide)) (Ev.pull 1, [1]) (by decide)

/-- Claim C3: whenever the input holds at least `min(initial, buffer_size)`
samples, the traversal succeeds (no validation error even when
`initial > buffer_size`; the effective fill level is the clamped
`min(initial, buffer_size)`), and the first output sample is emitted only
after at least `min(initial, buffer_size)` input samples have been pulled
from upstream, never earlier. -/
theorem startup_latency {α : Type} (initial buffer_size : Int)
    (g : Nat → Nat) (input : List α)
    (hlen : min initial buffer_size ≤ (input.length : Int)) :
    ∃ tr, incshuffleTrace initial buffer_size g input = some tr ∧
      min initial buffer_size ≤ (pullsBeforeFirstEmit tr : Int) := by
  obtain ⟨tr, htr, _⟩ :=
    mainLoop_runs buffer_size (min initial buffer_size) g input [] 0
  refine ⟨tr, htr, ?_⟩
  rcases mainLoop_startup buffer_size (min initial buffer_size) g input [] 0 tr htr
    with h | h
  · simpa using h
  · rw [h]
    exact hlen

/-- Witness for C3 with `initial > buffer_size` (silent clamping). -/
theorem startup_latency_witness :
    min (10 : Int) 3 ≤ (([1, 2, 3, 4] : List Nat).length : Int) ∧
    ∃ tr, incshuffleTrace 10 3 g0 [1, 2, 3, 4] = some tr ∧
      min (10 : Int) 3 ≤ (pullsBeforeFirstEmit tr : Int) :=
  ⟨by decide, startup_latency 10 3 g0 [1, 2, 3, 4] (by decide)⟩

/-- Claim C4: each pick-and-replace step on a non-empty buffer of
occupancy `n` draws an index `k` in the inclusive range `[0, n-1]`,
removes and returns the sample at index `k`, moves the last buffer
element into slot `k` and drops the last slot, shrinking occupancy by
exactly one; the buffer after the step is the buffer before with that
single occurrence removed. -/
theorem pick_and_replace {α : Type} (buf : List α) (g : Nat → Nat) (t : Nat)
    (h : buf ≠ []) :
    ∃ (k : Nat) (hk : k < buf.length) (last : α),
      buf.getLast? = some last ∧
      _pick buf g t = some (buf.get ⟨k, hk⟩, (buf.set k last).dropLast) ∧
      ((buf.set k last).dropLast).length + 1 = buf.length ∧
      buf.get ⟨k, hk⟩ ::ₘ (((buf.set k last).dropLast : List α) : Multiset α) =
        (buf : Multiset α) := by
  refine ⟨g t % buf.length, Nat.mod_lt _ (List.length_pos.mpr h), buf.getLast h,
    List.getLast?_eq_getLast_of_ne_nil h, _pick_eq buf g t h,
    _pick_some_length (_pick_eq buf g t h), ?_⟩
  rw [Multiset.cons_coe]
  exact Multiset.coe_eq_coe.mpr (swapRemove_perm buf _ _ h)

/-- Witness for C4 on a concrete buffer. -/
theorem pick_and_replace_witness :
    ([10, 20] : List Nat) ≠ [] ∧
    ∃ (k : Nat) (hk : k < ([10, 20] : List Nat).length) (last : Nat),
      ([10, 20] : List Nat).getLast? = some last ∧
      _pick [10, 20] g0 0 =
        some (([10, 20] : List Nat).get ⟨k, hk⟩,
          (([10, 20] : List Nat).set k last).dropLast) ∧
      ((([10, 20] : List Nat).set k last).dropLast).length + 1 =
        ([10, 20] : List Nat).length ∧
      ([10, 20] : List Nat).get ⟨k, hk⟩ ::ₘ
          (((([10, 20] : List Nat).set k last).dropLast : List Nat) : Multiset Nat) =
        (([10, 20] : List Nat) : Multiset Nat) :=
  ⟨by decide, pick_and_replace [10, 20] g0 0 (by decide)⟩

/-- Claim C5: a single traversal's output sequence is a pure function of
the input sequence and the generator's sequence of draws: two generator
streams that agree on the draws a traversal consumes (one per input
sample) produce the identical trace and the identical output sequence. -/
theorem traversal_deterministic {α : Type} (initial buffer_size : Int)
    (g₁ g₂ : Nat → Nat) (input : List α)
    (hg : ∀ i, i < input.length → g₁ i = g₂ i) :
    incshuffleTrace initial buffer_size g₁ input =
      incshuffleTrace initial buffer_size g₂ input ∧
    incshuffle initial buffer_size g₁ input =
      incshuffle initial buffer_size g₂ input := by
  have h : incshuffleTrace initial buffer_size g₁ input =
      incshuffleTrace initial buffer_size g₂ input :=
    mainLoop_congr buffer_size (min initial buffer_size) input [] 0
      (fun i hi => hg i (by simpa using hi))
  exact ⟨h, by simp only [incshuffle, h]⟩

/-- Witness for C5: the two generators differ from draw 4 on, but a
four-sample traversal consumes only draws 0 to 3. -/
theorem traversal_deterministic_witness :
    incshuffleTrace 2 3 (fun j => j) [1, 2, 3, 4] =
      incshuffleTrace 2 3 (fun j => if j < 4 then j else 99) [1, 2, 3, 4] ∧
    incshuffle 2 3 (fun j => j) [1, 2, 3, 4] =
      incshuffle 2 3 (fun j => if j < 4 then j else 99) [1, 2, 3, 4] :=
  traversal_deterministic 2 3 (fun j => j) (fun j => if j < 4 then j else 99)
    [1, 2, 3, 4] (by decide)

/-- Claim C6: the shuffler's length operation returns exactly the count
reported by the upstream source, and an error raised by the upstream
count operation propagates unchanged to the caller. -/
theorem length_reporting (ε : Type) :
    (∀ s : Except ε Nat, incshuffleLen s = s) ∧
    (∀ n : Nat, incshuffleLen (Except.ok n : Except ε Nat) = Except.ok n) ∧
    (∀ e : ε, incshuffleLen (Except.error e : Except ε Nat) = Except.error e) :=
  ⟨fun _ => rfl, fun _ => rfl, fun _ => rfl⟩

/-- Claim C7: when the input is strictly shorter than
`min(initial, buffer_size)`, the traversal raises no error, no sample is
emitted inside the main loop (all emissions come from the final drain),
and the output is a permutation of the input — in particular an empty
input yields an empty output. -/
theorem short_input_drain {α : Type} (initial buffer_size : Int)
    (g : Nat → Nat) (input : List α)
    (hshort : (input.length : Int) < min initial buffer_size) :
    ∃ tr, incshuffleTrace initial buffer_size g input = some tr ∧
      (∀ o ∈ tr, isMainEmit o.1 = false) ∧
      ∃ out, incshuffle initial buffer_size g input = some out ∧
        out.Perm input := by
  obtain ⟨tr, htr, hperm⟩ :=
    mainLoop_runs buffer_size (min initial buffer_size) g input [] 0
  refine ⟨tr, htr, ?_, emitted tr, ?_, by simpa using hperm⟩
  · exact mainLoop_noMainEmit buffer_size (min initial buffer_size) g input [] 0
      tr htr (by simpa using hshort)
  · simp only [incshuffle]
    rw [show incshuffleTrace initial buffer_size g input = some tr from htr]
    rfl

/-- Witness for C7: three samples, `initial = 10`, `buffer_size = 1000`. -/
theorem short_input_drain_witness :
    ((([1, 2, 3] : List Nat).length : Int) < min 10 1000) ∧
    ∃ tr, incshuffleTrace 10 1000 g0 [1, 2, 3] = some tr ∧
      (∀ o ∈ tr, isMainEmit o.1 = false) ∧
      ∃ out, incshuffle 10 1000 g0 [1, 2, 3] = some out ∧
        out.Perm [1, 2, 3] :=
  ⟨by decide, short_input_drain 10 1000 g0 [1, 2, 3] (by decide)⟩

/-- Claim C9: with `buffer_size ≤ 0` (zero or negative) the traversal
still terminates without error: the top-up is always skipped (occupancy
is never strictly below the capacity), the fill-level guard holds already
at occupancy 1, each iteration picks the single buffered sample back out
(the draw is over `[0, 0]`), and the output equals the input in its
original order — a degenerate pass-through with no shuffling. -/
theorem degenerate_passthrough {α : Type} (initial buffer_size : Int)
    (g : Nat → Nat) (input : List α) (hbs : buffer_size ≤ 0) :
    incshuffleTrace initial buffer_size g input =
      some (input.bind fun x => [(Ev.pull x, [x]), (Ev.emitM x, [])]) ∧
    incshuffle initial buffer_size g input = some input := by
  have h1 : incshuffleTrace initial buffer_size g input =
      some (input.bind fun x => [(Ev.pull x, [x]), (Ev.emitM x, [])]) :=
    mainLoop_passthrough buffer_size (min initial buffer_size) g hbs
      (le_trans (min_le_right _ _) hbs) input 0
  refine ⟨h1, ?_⟩
  simp only [incshuffle, h1, Option.map_some']
  rw [emitted_passthrough]

/-- Witness for C9 with `buffer_size = 0`. -/
theorem degenerate_passthrough_witness :
    ((0 : Int) ≤ 0) ∧
    (incshuffleTrace 10 0 g0 [7, 8] =
      some [(Ev.pull 7, [7]), (Ev.emitM 7, []), (Ev.pull 8, [8]), (Ev.emitM 8, [])] ∧
    incshuffle 10 0 g0 [7, 8] = some [7, 8]) :=
  ⟨by decide, degenerate_passthrough 10 0 g0 [7, 8] (by decide)⟩

/-- Counterexample to the claimed C8 trace: with input `[1..5]`,
`initial = 2`, `buffer_size = 3`, and the fixed deterministic pick
sequence that always selects index 0, the first pick occurs after only 2
pulls — at occupancy 2, not 3 — and the buffer never holds `[1, 2, 3]`:
the loop picks in the very first iteration as soon as the top-up brings
the buffer to `[1, 2]`, because `2 >= initial` already holds. -/
theorem scenario_trace_counterexample :
    incshuffleTrace 2 3 g0 [1, 2, 3, 4, 5] =
      some [(Ev.pull 1, [1]), (Ev.pull 2, [1, 2]), (Ev.emitM 1, [2]),
        (Ev.pull 3, [2, 3]), (Ev.pull 4, [2, 3, 4]), (Ev.emitM 2, [4, 3]),
        (Ev.pull 5, [4, 3, 5]), (Ev.emitM 4, [5, 3]), (Ev.emitD 5, [3]),
        (Ev.emitD 3, [])] ∧
    (incshuffleTrace 2 3 g0 [1, 2, 3, 4, 5]).map pullsBeforeFirstEmit = some 2 ∧
    (incshuffleTrace 2 3 g0 [1, 2, 3, 4, 5]).map
      (fun tr => tr.all fun o => !(o.2 == [1, 2, 3])) = some true := by
  decide

/-- Claim C8 (amended): for input `[1,2,3,4,5]`, `initial = 2`,
`buffer_size = 3`, and the fixed deterministic pick sequence that always
selects index 0, the traversal follows this trace: the buffer fills to
`[1]` and tops up to `[1, 2]`; the first pick occurs at occupancy 2
(2 >= initial 2); in the next iteration samples 3 and 4 are pulled
(append plus top-up, reaching occupancy 3 = buffer_size after the pick of
the previous round left 1); sample 5 is pulled alone (no top-up since
occupancy equals buffer_size); and the final drain empties the remaining
two samples; the emitted multiset is exactly `{1, 2, 3, 4, 5}`. -/
theorem scenario_trace :
    incshuffleTrace 2 3 g0 [1, 2, 3, 4, 5] =
      some [(Ev.pull 1, [1]), (Ev.pull 2, [1, 2]), (Ev.emitM 1, [2]),
        (Ev.pull 3, [2, 3]), (Ev.pull 4, [2, 3, 4]), (Ev.emitM 2, [4, 3]),
        (Ev.pull 5, [4, 3, 5]), (Ev.emitM 4, [5, 3]), (Ev.emitD 5, [3]),
        (Ev.emitD 3, [])] ∧
    incshuffle 2 3 g0 [1, 2, 3, 4, 5] = some [1, 2, 4, 5, 3] ∧
    (([1, 2, 4, 5, 3] : List Nat) : Multiset Nat) =
      (([1, 2, 3, 4, 5] : List Nat) : Multiset Nat) := by
  decide
